import Mathlib

/-
Verification of the batch-job orchestration subsystem of qmblite.

Shallow embedding conventions:
- Python strings are `List Char` (`Str` below); concrete literals are written
  via `String.toList`.
- Python dicts that the code iterates in insertion order are association
  lists (`List (key × value)`).
- Fallible Python code (raising exceptions) is embedded with `Except PyErr`.
- The filesystem touched by `os.path.isdir` / `os.mkdir` is a record of the
  existing directory paths; `glob` reads a record of file paths.

The embedded functions follow, in order:
- `prepareJobs`   from `BatchSender.prepare_jobs`  (senderscripts/batchsend.py)
- `prepareFolders` from `BatchSender.prepare_folders` (same file)
- `batchSenderInit` from `BatchSender.__init__` (same file)
- `runJobs`       from `BatchSender.run_jobs` (same file)
- `extractDisorder` from `_extract_disorder` (postprocessing/utils.py, mode 0)
- `extractSingleModel` from `extract_single_model` (postprocessing/utils.py)
The `Job` class lives in `senderscripts/prepjob.py` and the `SubmittedScript`
class in `senderscripts/scriptsub.py`; neither file is part of the sources
given, so their behaviour (descriptor rendering, parameter-role validation,
per-job dispatch) is modelled from the spec where a claim needs it, and each
such definition says so in its doc comment.
-/

namespace Qmblite

/-- Python strings as character lists. -/
abbrev Str := List Char

/-- Exceptions the embedded Python code can raise. -/
inductive PyErr where
  | valueError
  | unboundLocal
  | configError
  | fileExists
deriving DecidableEq, Repr

/-! ## Parameter sets and jobs -/

/-- A ParameterSet: the `params` dict of `BatchSender`, an insertion-ordered
mapping from parameter name to the list of candidate values.  Values are kept
as their rendered string tokens (the code only ever interpolates them into
strings). -/
abbrev Params := List (Str × List Str)

/-- Cartesian product of a list of value lists in the order
`itertools.product` enumerates it: the first list varies slowest, the last
varies fastest. -/
def listProd {α : Type} : List (List α) → List (List α)
  | [] => [[]]
  | xs :: rest => xs.flatMap (fun x => (listProd rest).map (fun combo => x :: combo))

/-- One job of the batch: the `Job` instance built by `prepare_jobs` from one
tuple of the product, `dict(zip(keys, i))`, together with the shared key
classification lists and the override table. -/
structure Job where
  pars : List (Str × Str)
  sysparKeys : List Str
  modparKeys : List Str
  auxparKeys : List Str
  redef : List (Str × Str)
deriving DecidableEq, Repr

/-- Embedding of `BatchSender.prepare_jobs`: iterate `itertools.product` over
all of `params.values()` (note: all keys, the seed keys included) and package
each tuple, zipped with `params.keys()`, into a `Job`. -/
def prepareJobs (params : Params) (sysparKeys modparKeys auxparKeys : List Str)
    (redef : List (Str × Str)) : List Job :=
  (listProd (params.map Prod.snd)).map
    (fun combo =>
      { pars := (params.map Prod.fst).zip combo
        sysparKeys := sysparKeys
        modparKeys := modparKeys
        auxparKeys := auxparKeys
        redef := redef })

/-- The reserved seed-range keys named by the spec. -/
def seedKeys : List Str := ["min_seed".toList, "max_seed".toList, "step_seed".toList]

/-- Job count as the spec's words state it (section 4.2): the product of the
lengths of the value lists of the non-seed keys only.  This definition follows
the spec, not the source, and exists to be compared with `prepareJobs`. -/
def numJobsSpecNonSeed (params : Params) : Nat :=
  ((params.filter (fun kv => !(seedKeys.contains kv.1))).map (fun kv => kv.2.length)).prod

/-! ## Descriptors (modelled from the spec: `prepjob.py` is not among the
sources) -/

/-- Join string tokens with single underscores, as Python's
`'_'.join(tokens)` does. -/
def interUnd : List Str → Str
  | [] => []
  | [t] => t
  | t :: ts => t ++ '_' :: interUnd ts

/-- The (key, rendered value) pairs of a job in descriptor order: system keys
then module keys, each looked up in the job's assignment. -/
def jobPairs (job : Job) : List (Str × Str) :=
  (job.sysparKeys ++ job.modparKeys).map (fun k => (k, (List.lookup k job.pars).getD []))

/-- The token sequence key1, value1, key2, value2, ... of a pair list. -/
def tokensOf (pairs : List (Str × Str)) : List Str :=
  pairs.flatMap (fun kv => [kv.1, kv.2])

/-- Descriptor text of a pair list: the `key_value` tokens joined by
underscores. -/
def descriptorOf (pairs : List (Str × Str)) : Str :=
  interUnd (tokensOf pairs)

/-- Modelled from the spec: the `Job` class (file `prepjob.py`, not among the
sources) derives "a canonical descriptor string ... built by concatenating
`key_value` pairs for system and module keys in a fixed, caller-supplied key
order" (section 3), matching the worked example `L_8_dW_1.0` of section 8. -/
def Job.descriptor (job : Job) : Str :=
  descriptorOf (jobPairs job)

/-! ## Folder layout (`BatchSender.prepare_folders`) -/

/-- The filesystem as `prepare_folders` sees it: the set of existing
directory paths. -/
structure FS where
  dirs : List Str
deriving DecidableEq, Repr

/-- Embedding of `os.path.isdir`. -/
def isdir (fs : FS) (p : Str) : Bool := fs.dirs.contains p

/-- Embedding of `os.mkdir`: raises `FileExistsError` when the path already
exists, otherwise records the new directory. -/
def mkdir (fs : FS) (p : Str) : Except PyErr FS :=
  if isdir fs p then .error .fileExists else .ok ⟨p :: fs.dirs⟩

/-- The `subdirs_list` of `prepare_folders`. -/
def subdirsList : List Str := ["tmp".toList, "log".toList, "results".toList, "log_deps".toList]

/-- The `sub_path` expression of `prepare_folders`:
`storage + '/' + subdir + '/'`. -/
def subPath (storage sub : Str) : Str := storage ++ '/' :: (sub ++ ['/'])

/-- The guarded creation step of `prepare_folders`:
`if not os.path.isdir(p): os.mkdir(p)`, as the state it leaves behind. -/
def ensureDir (fs : FS) (p : Str) : FS :=
  if isdir fs p then fs else ⟨p :: fs.dirs⟩

/-- The loop of `prepare_folders` over `subdirs_list`: guarded `mkdir` per
subdirectory, building `subdirs_dict` (subdir name to `sub_path`) alongside. -/
def mkSubdirs (storage : Str) : List Str → FS → Except PyErr (FS × List (Str × Str))
  | [], fs => .ok (fs, [])
  | sub :: rest, fs =>
      let sp := subPath storage sub
      match (if isdir fs sp then .ok fs else mkdir fs sp : Except PyErr FS) with
      | .error e => .error e
      | .ok fs1 =>
          match mkSubdirs storage rest fs1 with
          | .error e => .error e
          | .ok (fs2, d) => .ok (fs2, (sub, sp) :: d)

/-- Embedding of `BatchSender.prepare_folders`: create the storage root if
missing, then the four subdirectories, each behind an `isdir` guard; returns
the filesystem and the `subdirs_dict` merged into the object's attributes. -/
def prepareFolders (storage : Str) (fs : FS) : Except PyErr (FS × List (Str × Str)) :=
  match (if isdir fs storage then .ok fs else mkdir fs storage : Except PyErr FS) with
  | .error e => .error e
  | .ok fs1 => mkSubdirs storage subdirsList fs1

/-! ## Batch construction (`BatchSender.__init__`) -/

/-- Occurrence count of a key across the three classification lists. -/
def keyRoles (k : Str) (sysparKeys modparKeys auxparKeys : List Str) : Nat :=
  (if sysparKeys.contains k then 1 else 0) +
    (if modparKeys.contains k then 1 else 0) +
    (if auxparKeys.contains k then 1 else 0)

/-- Classification check of a single key: a reserved seed key is recognized
implicitly (so it need appear in no list, but may appear in at most one); any
other key must appear in exactly one of the three lists. -/
def keyOk (k : Str) (sysparKeys modparKeys auxparKeys : List Str) : Bool :=
  if seedKeys.contains k then decide (keyRoles k sysparKeys modparKeys auxparKeys ≤ 1)
  else decide (keyRoles k sysparKeys modparKeys auxparKeys = 1)

/-- Modelled from the spec: the Parameter Classifier (section 4.1) — "verify
every key in the ParameterSet appears in exactly one of the lists, except the
reserved seed keys ... recognized implicitly.  Fails with a configuration
error, surfaced before any filesystem mutation".  The validation code lives in
the `Job` class of the missing `prepjob.py`, reached from
`BatchSender.__init__` through `prepare_jobs` before `prepare_folders` runs. -/
def checkKeys (params : Params) (sysparKeys modparKeys auxparKeys : List Str) :
    Except PyErr Unit :=
  if params.all (fun kv => keyOk kv.1 sysparKeys modparKeys auxparKeys) then .ok ()
  else .error .configError

/-- Embedding of `BatchSender.__init__`: store the configuration, run
`prepare_jobs` (which reaches the spec-modelled key classification), then
`prepare_folders`.  Returns the prepared job list (or the error raised) and
the filesystem state; dispatch (`run_jobs`) is a separate, later call.  The
folder-error branch returns the input filesystem: `prepareFolders` is proved
below never to take it. -/
def batchSenderInit (params : Params) (sysparKeys modparKeys auxparKeys : List Str)
    (redef : List (Str × Str)) (storage : Str) (fs : FS) :
    Except PyErr (List Job) × FS :=
  match checkKeys params sysparKeys modparKeys auxparKeys with
  | .error e => (.error e, fs)
  | .ok _ =>
      let jobs := prepareJobs params sysparKeys modparKeys auxparKeys redef
      match prepareFolders storage fs with
      | .error e => (.error e, fs)
      | .ok (fs', _) => (.ok jobs, fs')

/-! ## Batch running (`BatchSender.run_jobs`) -/

/-- Outcome of dispatching one job: the scheduler's submission id on
acceptance, or the recorded failure report. -/
inductive DispatchOutcome where
  | accepted : Nat → DispatchOutcome
  | rejected : Str → DispatchOutcome
deriving DecidableEq, Repr

/-- Embedding of the loop of `BatchSender.run_jobs`: build and dispatch a
`SubmittedScript` for each job of `self.jobs` in order.  The per-job dispatch
is abstracted as a function into `DispatchOutcome`; modelled from the spec
(`scriptsub.py` is not among the sources): "Submission failure for one Job is
reported and the Runner continues with the remaining Jobs" (section 4.6), so
dispatching returns an outcome rather than raising. -/
def runJobs (dispatch : Job → DispatchOutcome) : List Job → List DispatchOutcome
  | [] => []
  | job :: rest => dispatch job :: runJobs dispatch rest

/-! ## Lemmas about the expander -/

theorem flatMap_const_length {α β : Type} (xs : List α) (f : α → List β) (n : Nat)
    (h : ∀ x, (f x).length = n) : (xs.flatMap f).length = xs.length * n := by
  induction xs with
  | nil => simp
  | cons x xs ih =>
      simp only [List.flatMap_cons, List.length_append, List.length_cons, ih, h]
      ring

theorem listProd_length {α : Type} (ls : List (List α)) :
    (listProd ls).length = (ls.map List.length).prod := by
  induction ls with
  | nil => rfl
  | cons xs rest ih =>
      simp only [listProd, List.map_cons, List.prod_cons]
      rw [flatMap_const_length xs _ (listProd rest).length (fun x => by simp), ih]

theorem prepareJobs_length (params : Params) (s m a : List Str) (r : List (Str × Str)) :
    (prepareJobs params s m a r).length = (params.map (fun kv => kv.2.length)).prod := by
  rw [prepareJobs, List.length_map, listProd_length, List.map_map]
  rfl

theorem prod_lengths_eq_nonSeed (params : Params)
    (h : ∀ kv ∈ params, seedKeys.contains kv.1 = true → kv.2.length = 1) :
    (params.map (fun kv => kv.2.length)).prod = numJobsSpecNonSeed params := by
  unfold numJobsSpecNonSeed
  induction params with
  | nil => rfl
  | cons kv rest ih =>
      have hrest := ih (fun kv' h' hs => h kv' (List.mem_cons_of_mem _ h') hs)
      cases hs : seedKeys.contains kv.1 with
      | true =>
          have h1 : kv.2.length = 1 := h kv (List.mem_cons_self _ _) hs
          simp_all [List.filter_cons]
      | false =>
          simp_all [List.filter_cons]

theorem listProd_of_nil_mem {α : Type} (ls : List (List α)) (h : [] ∈ ls) :
    listProd ls = [] := by
  induction ls with
  | nil => simp at h
  | cons xs rest ih =>
      rcases List.mem_cons.mp h with h | h
      · simp [listProd, ← h]
      · simp [listProd, ih h]

/-! ## Claim theorems: expander and runner -/

/-- Claim C1 (amended): the number of Jobs `prepare_jobs` produces equals the
product of the lengths of the value lists of ALL keys of the ParameterSet —
the seed-range keys are factors of the product like any other key; the
claim's formula (product over the non-seed keys only) therefore holds exactly
when every seed key present carries a single-element value list. -/
theorem prepare_jobs_count_product :
    ∀ (params : Params) (s m a : List Str) (r : List (Str × Str)),
      (prepareJobs params s m a r).length = (params.map (fun kv => kv.2.length)).prod ∧
      ((∀ kv ∈ params, seedKeys.contains kv.1 = true → kv.2.length = 1) →
        (prepareJobs params s m a r).length = numJobsSpecNonSeed params) := by
  intro params s m a r
  refine ⟨prepareJobs_length params s m a r, fun h => ?_⟩
  rw [prepareJobs_length params s m a r, prod_lengths_eq_nonSeed params h]

/-- Claim C1, counterexample: a ParameterSet whose `min_seed` key has a
two-element value list yields 2 Jobs, while the product of the non-seed list
lengths is 1 — the seed keys are factors of the product, contrary to the
claim. -/
theorem prepare_jobs_seed_factor_counterexample :
    (prepareJobs [("L".toList, ["8".toList]), ("min_seed".toList, ["1".toList, "2".toList])]
        ["L".toList] ["min_seed".toList] [] []).length = 2 ∧
      numJobsSpecNonSeed
        [("L".toList, ["8".toList]), ("min_seed".toList, ["1".toList, "2".toList])] = 1 ∧
      (2 : Nat) ≠ 1 := by
  refine ⟨by decide, by decide, by decide⟩

/-- Claim C4: on the ParameterSet {L:[8,10], dW:[1.0,2.0]} with system keys
[L] and module keys [dW], `prepare_jobs` produces exactly 4 Jobs, in the
Cartesian-product order of the declared key order, with descriptors
L_8_dW_1.0, L_8_dW_2.0, L_10_dW_1.0, L_10_dW_2.0. -/
theorem prepare_jobs_example_order :
    (prepareJobs [("L".toList, ["8".toList, "10".toList]), ("dW".toList, ["1.0".toList, "2.0".toList])]
        ["L".toList] ["dW".toList] [] []).length = 4 ∧
      (prepareJobs [("L".toList, ["8".toList, "10".toList]), ("dW".toList, ["1.0".toList, "2.0".toList])]
          ["L".toList] ["dW".toList] [] []).map Job.descriptor =
        ["L_8_dW_1.0".toList, "L_8_dW_2.0".toList, "L_10_dW_1.0".toList, "L_10_dW_2.0".toList] := by
  refine ⟨by decide, by decide⟩

/-- Claim C5: expanding the same ParameterSet with the same key order twice
yields bit-identical Job sequences — the same jobs in the same order with the
same key-to-value assignments, and the same ordered descriptor strings.  The
embedding of `prepare_jobs` is a pure function of the ParameterSet and the
key lists, so the two runs are definitionally equal. -/
theorem prepare_jobs_deterministic :
    ∀ (params : Params) (s m a : List Str) (r : List (Str × Str)),
      prepareJobs params s m a r = prepareJobs params s m a r ∧
      (prepareJobs params s m a r).map Job.descriptor =
        (prepareJobs params s m a r).map Job.descriptor :=
  fun _ _ _ _ _ => ⟨rfl, rfl⟩

/-- Claim C7: `run_jobs` processes the jobs of the batch in the batch's
sequence order — whatever the per-job dispatch outcomes are (including
rejections), every job receives its outcome at its own sequence position and
the batch is never cut short: position i of the outcome list is exactly the
dispatch of job i, for every dispatch function. -/
theorem run_jobs_continue_after_failure :
    ∀ (dispatch : Job → DispatchOutcome) (jobs : List Job),
      (runJobs dispatch jobs).length = jobs.length ∧
      ∀ i : Nat, (runJobs dispatch jobs)[i]? = (jobs[i]?).map dispatch := by
  intro dispatch jobs
  constructor
  · induction jobs with
    | nil => rfl
    | cons j rest ih => simp [runJobs, ih]
  · intro i
    induction jobs generalizing i with
    | nil => simp [runJobs]
    | cons j rest ih =>
        cases i with
        | zero => simp [runJobs]
        | succ n => simp [runJobs, ih]

/-- Claim C8: a ParameterSet in which some key has an empty value list
expands to zero Jobs (the Cartesian product is empty), no error is raised
(the expander is a total function), and running the batch performs zero
work. -/
theorem prepare_jobs_empty_value_list (params : Params) (s m a : List Str)
    (r : List (Str × Str)) (dispatch : Job → DispatchOutcome)
    (h : ∃ kv ∈ params, kv.2 = []) :
    prepareJobs params s m a r = [] ∧
      runJobs dispatch (prepareJobs params s m a r) = [] := by
  obtain ⟨kv, hm, he⟩ := h
  have hmem : [] ∈ params.map Prod.snd := List.mem_map.mpr ⟨kv, hm, he⟩
  have h2 : prepareJobs params s m a r = [] := by
    simp [prepareJobs, listProd_of_nil_mem _ hmem]
  exact ⟨h2, by rw [h2]; rfl⟩

/-- Claim C8, witness: the theorem applied to a concrete ParameterSet with an
empty value list. -/
theorem prepare_jobs_empty_value_list_witness :
    prepareJobs [("L".toList, [])] ["L".toList] [] [] [] = [] ∧
      runJobs (fun _ => .accepted 0) (prepareJobs [("L".toList, [])] ["L".toList] [] [] []) = [] :=
  prepare_jobs_empty_value_list [("L".toList, [])] ["L".toList] [] [] []
    (fun _ => .accepted 0) ⟨("L".toList, []), by simp, rfl⟩

/-! ## Lemmas about the folder layout -/

theorem guarded_mkdir_eq (fs : FS) (p : Str) :
    (if isdir fs p then .ok fs else mkdir fs p : Except PyErr FS) = .ok (ensureDir fs p) := by
  by_cases h : isdir fs p = true <;> simp [h, mkdir, ensureDir]

theorem isdir_ensure_self (fs : FS) (p : Str) : isdir (ensureDir fs p) p = true := by
  by_cases h : isdir fs p = true
  · rw [ensureDir, if_pos h]; exact h
  · rw [ensureDir, if_neg h]; simp [isdir]

theorem isdir_ensure_mono (fs : FS) (p q : Str) (h : isdir fs q = true) :
    isdir (ensureDir fs p) q = true := by
  by_cases hp : isdir fs p = true
  · rw [ensureDir, if_pos hp]; exact h
  · rw [ensureDir, if_neg hp]
    simp [isdir] at h ⊢
    exact Or.inr h

theorem mkSubdirs_ok (storage : Str) :
    ∀ (l : List Str) (fs : FS), ∃ fs' : FS,
      mkSubdirs storage l fs = .ok (fs', l.map (fun sub => (sub, subPath storage sub))) ∧
      (∀ q, isdir fs q = true → isdir fs' q = true) ∧
      (∀ sub ∈ l, isdir fs' (subPath storage sub) = true) := by
  intro l
  induction l with
  | nil => exact fun fs => ⟨fs, rfl, fun _ h => h, by simp⟩
  | cons sub rest ih =>
      intro fs
      obtain ⟨fs', heq, hmono, hmem⟩ := ih (ensureDir fs (subPath storage sub))
      refine ⟨fs', ?_, ?_, ?_⟩
      · simp [mkSubdirs, guarded_mkdir_eq, heq]
      · exact fun q h => hmono q (isdir_ensure_mono _ _ _ h)
      · intro s hs
        rcases List.mem_cons.mp hs with hs | hs
        · exact hs ▸ hmono _ (isdir_ensure_self _ _)
        · exact hmem s hs

theorem mkSubdirs_all_present (storage : Str) :
    ∀ (l : List Str) (fs : FS), (∀ sub ∈ l, isdir fs (subPath storage sub) = true) →
      mkSubdirs storage l fs = .ok (fs, l.map (fun sub => (sub, subPath storage sub))) := by
  intro l
  induction l with
  | nil => exact fun fs _ => rfl
  | cons sub rest ih =>
      intro fs h
      have hsub : isdir fs (subPath storage sub) = true := h sub (List.mem_cons_self _ _)
      have hrest := ih fs (fun s hs => h s (List.mem_cons_of_mem _ hs))
      simp [mkSubdirs, hsub, hrest]

/-- Claim C3: on any storage root and any starting filesystem,
`prepare_folders` succeeds (raises no error), leaves the root containing the
four subdirectories tmp, log, results and log_deps, and is idempotent: run
again on the state it produced, it succeeds with exactly the same filesystem
(no duplicate is created and nothing existing is altered) and the same
subdirectory table. -/
theorem prepare_folders_layout_idempotent :
    ∀ (storage : Str) (fs : FS), ∃ (fs' : FS) (d : List (Str × Str)),
      prepareFolders storage fs = .ok (fs', d) ∧
      isdir fs' storage = true ∧
      (∀ sub ∈ subdirsList, isdir fs' (subPath storage sub) = true) ∧
      prepareFolders storage fs' = .ok (fs', d) := by
  intro storage fs
  obtain ⟨fs', heq, hmono, hmem⟩ := mkSubdirs_ok storage subdirsList (ensureDir fs storage)
  have hroot : isdir fs' storage = true := hmono _ (isdir_ensure_self fs storage)
  refine ⟨fs', subdirsList.map (fun sub => (sub, subPath storage sub)), ?_, hroot, hmem, ?_⟩
  · simp [prepareFolders, guarded_mkdir_eq, heq]
  · simp [prepareFolders, hroot, mkSubdirs_all_present storage subdirsList fs' hmem]

/-- Claim C2: a ParameterSet with a key the classifier cannot place in
exactly one role (an unclassified non-seed key, or a key in more than one of
the caller's lists) makes batch construction fail with a configuration error,
and the filesystem is returned exactly as it was: no directory has been
created, and `run_jobs` (a separate later call) never runs. -/
theorem batch_construction_bad_key_error (params : Params)
    (s m a : List Str) (r : List (Str × Str)) (storage : Str) (fs : FS)
    (h : ∃ kv ∈ params, keyOk kv.1 s m a = false) :
    batchSenderInit params s m a r storage fs = (.error .configError, fs) := by
  have hall : params.all (fun kv => keyOk kv.1 s m a) = false := by
    rw [List.all_eq_false]
    obtain ⟨kv, hm, hf⟩ := h
    exact ⟨kv, hm, by simp [hf]⟩
  simp [batchSenderInit, checkKeys, hall]

/-- Claim C2, witness: the theorem applied to a ParameterSet whose key
`bogus` appears in none of the three (empty) classification lists. -/
theorem batch_construction_bad_key_error_witness :
    batchSenderInit [("bogus".toList, ["1".toList])] [] [] [] [] "store".toList ⟨[]⟩ =
      (.error .configError, (⟨[]⟩ : FS)) :=
  batch_construction_bad_key_error [("bogus".toList, ["1".toList])] [] [] [] [] "store".toList
    ⟨[]⟩ ⟨("bogus".toList, ["1".toList]), by simp, by decide⟩

/-! ## Python string primitives used by `_extract_disorder`
(postprocessing/utils.py) -/

/-- Decidable equality of embedded fallible results. -/
instance {ε α : Type} [DecidableEq ε] [DecidableEq α] : DecidableEq (Except ε α) := fun a b =>
  match a, b with
  | .ok x, .ok y =>
      if h : x = y then .isTrue (by rw [h]) else .isFalse (fun he => h (Except.ok.inj he))
  | .error x, .error y =>
      if h : x = y then .isTrue (by rw [h]) else .isFalse (fun he => h (Except.error.inj he))
  | .ok _, .error _ => .isFalse (fun he => Except.noConfusion he)
  | .error _, .ok _ => .isFalse (fun he => Except.noConfusion he)

/-- Prepend a chunk to the first piece of a split result. -/
def consFirst (x : Str) : List Str → List Str
  | [] => [x]
  | r :: rs => (x ++ r) :: rs

/-- Fuelled scanner behind `splitL`: the fuel only bounds the recursion (it
is always at least the string length where `splitL` uses it), keeping the
function structurally recursive so that concrete runs reduce in the kernel. -/
def splitN (sep : Str) : Nat → Str → List Str
  | _, [] => [[]]
  | 0, s => [s]
  | n + 1, c :: s =>
      if sep ≠ [] ∧ sep.isPrefixOf (c :: s) then
        [] :: splitN sep n (s.drop (sep.length - 1))
      else
        consFirst [c] (splitN sep n s)

/-- Embedding of Python `string.split(sep)`: cut at every leftmost,
non-overlapping occurrence of `sep`.  (Python raises on an empty separator;
`_extract_disorder` only ever splits on the underscore-wrapped disorder key,
which is never empty.) -/
def splitL (sep s : Str) : List Str := splitN sep s.length s

/-- Fuelled scanner behind `countOcc`, matching `splitN` step for step. -/
def countN (sep : Str) : Nat → Str → Nat
  | _, [] => 0
  | 0, _ => 0
  | n + 1, c :: s =>
      if sep ≠ [] ∧ sep.isPrefixOf (c :: s) then
        countN sep n (s.drop (sep.length - 1)) + 1
      else
        countN sep n s

/-- Count of the leftmost, non-overlapping occurrences of `sep`, scanning as
`splitL` does. -/
def countOcc (sep s : Str) : Nat := countN sep s.length s

/-- Embedding of Python `string.find(c)` for a single character: index of
the first occurrence, `none` standing for Python's -1. -/
def pyFind (c : Char) : Str → Option Nat
  | [] => none
  | a :: s => if a = c then some 0 else (pyFind c s).map (· + 1)

/-- Decimal value of a digit string, as `int`/`float` read one. -/
def digitsToNat (l : Str) : Nat := l.foldl (fun a c => a * 10 + (c.toNat - 48)) 0

/-- Embedding of `np.float(...)` (the `float` constructor) on a token: an
optional sign, then a decimal mantissa — digits with an optional decimal
point before, between or after them — then an optional decimal exponent; the
result is the exact rational value, and `none` embeds the `ValueError` raised
on anything else.  (The spellings inf/nan and surrounding whitespace are
outside the descriptor grammar and are not modelled.) -/
def pyFloat (s : Str) : Option ℚ :=
  let (sgn, s1) : Int × Str :=
    match s with
    | '+' :: r => (1, r)
    | '-' :: r => (-1, r)
    | r => (1, r)
  let ip := s1.takeWhile Char.isDigit
  let r1 := s1.dropWhile Char.isDigit
  let (fp, r2) : Str × Str :=
    match r1 with
    | '.' :: r => (r.takeWhile Char.isDigit, r.dropWhile Char.isDigit)
    | r => ([], r)
  if ip = [] ∧ fp = [] then none
  else
    let num : Int := sgn * ((digitsToNat ip * 10 ^ fp.length + digitsToNat fp : Nat) : Int)
    let den : Nat := 10 ^ fp.length
    match r2 with
    | [] => some (mkRat num den)
    | e :: r3 =>
        if e = 'e' ∨ e = 'E' then
          let (epos, r4) : Bool × Str :=
            match r3 with
            | '+' :: r => (true, r)
            | '-' :: r => (false, r)
            | r => (true, r)
          let ed := r4.takeWhile Char.isDigit
          if ed = [] ∨ r4.dropWhile Char.isDigit ≠ [] then none
          else if epos then some (mkRat (num * ((10 ^ digitsToNat ed : Nat) : Int)) den)
          else some (mkRat num (den * 10 ^ digitsToNat ed))
        else none

/-- The `disorder_key.lstrip('_').rstrip('_')` step of `_extract_disorder`. -/
def stripUnd (s : Str) : Str :=
  List.rdropWhile (· == '_') (List.dropWhile (· == '_') s)

/-- The `'_{}_'.format(disorder_key)` step: the stripped key with exactly one
underscore on each side. -/
def wrappedKey (dk : Str) : Str := '_' :: (stripUnd dk ++ ['_'])

/-- Embedding of `_extract_disorder` (postprocessing/utils.py) with
`mode == 0`: prefix the string with an underscore, wrap the stripped key in
underscores, split on the wrapped key (the two-element unpacking raises
`ValueError` unless the key occurs exactly once), cut the disorder token at
the next underscore, parse it as a float, and return the left part stripped
of leading underscores joined with the remainder, together with the value. -/
def extractDisorder (s disorderKey : Str) : Except PyErr (Str × ℚ) :=
  let string := '_' :: s
  match splitL (wrappedKey disorderKey) string with
  | [rest1, disString] =>
      let disorder : Str :=
        match pyFind '_' disString with
        | none => disString
        | some i => disString.take i
      let rest2 : Str :=
        match pyFind '_' disString with
        | none => []
        | some i => disString.drop i
      match pyFloat disorder with
      | none => .error .valueError
      | some q => .ok (List.dropWhile (· == '_') rest1 ++ rest2, q)
  | _ => .error .valueError

/-! ## Properties of the splitting scanner -/

theorem splitN_nil (sep : Str) (n : Nat) : splitN sep n [] = [[]] := by
  cases n <;> rfl

theorem splitN_succ_cons (sep : Str) (n : Nat) (c : Char) (s : Str) :
    splitN sep (n + 1) (c :: s) =
      if sep ≠ [] ∧ sep.isPrefixOf (c :: s) then [] :: splitN sep n (s.drop (sep.length - 1))
      else consFirst [c] (splitN sep n s) := rfl

theorem countN_nil (sep : Str) (n : Nat) : countN sep n [] = 0 := by
  cases n <;> rfl

theorem countN_succ_cons (sep : Str) (n : Nat) (c : Char) (s : Str) :
    countN sep (n + 1) (c :: s) =
      if sep ≠ [] ∧ sep.isPrefixOf (c :: s) then countN sep n (s.drop (sep.length - 1)) + 1
      else countN sep n s := rfl

theorem splitN_congr (sep : Str) :
    ∀ (n m : Nat) (s : Str), s.length ≤ n → s.length ≤ m → splitN sep n s = splitN sep m s := by
  intro n
  induction n with
  | zero =>
      intro m s hn _
      have hs : s = [] := List.eq_nil_of_length_eq_zero (Nat.le_zero.mp hn)
      subst hs
      rw [splitN_nil, splitN_nil]
  | succ n ih =>
      intro m s hn hm
      cases s with
      | nil => rw [splitN_nil, splitN_nil]
      | cons c s =>
          cases m with
          | zero => simp at hm
          | succ m =>
              rw [splitN_succ_cons, splitN_succ_cons]
              have hs : s.length ≤ n := (by simpa using hn)
              have hs' : s.length ≤ m := (by simpa using hm)
              by_cases h : sep ≠ [] ∧ sep.isPrefixOf (c :: s) = true
              · rw [if_pos h, if_pos h,
                  ih m (s.drop (sep.length - 1))
                    (le_trans (by simp) hs) (le_trans (by simp) hs')]
              · rw [if_neg h, if_neg h, ih m s hs hs']

theorem countN_congr (sep : Str) :
    ∀ (n m : Nat) (s : Str), s.length ≤ n → s.length ≤ m → countN sep n s = countN sep m s := by
  intro n
  induction n with
  | zero =>
      intro m s hn _
      have hs : s = [] := List.eq_nil_of_length_eq_zero (Nat.le_zero.mp hn)
      subst hs
      rw [countN_nil, countN_nil]
  | succ n ih =>
      intro m s hn hm
      cases s with
      | nil => rw [countN_nil, countN_nil]
      | cons c s =>
          cases m with
          | zero => simp at hm
          | succ m =>
              rw [countN_succ_cons, countN_succ_cons]
              have hs : s.length ≤ n := (by simpa using hn)
              have hs' : s.length ≤ m := (by simpa using hm)
              by_cases h : sep ≠ [] ∧ sep.isPrefixOf (c :: s) = true
              · rw [if_pos h, if_pos h,
                  ih m (s.drop (sep.length - 1))
                    (le_trans (by simp) hs) (le_trans (by simp) hs')]
              · rw [if_neg h, if_neg h, ih m s hs hs']

theorem splitL_nil (sep : Str) : splitL sep [] = [[]] := rfl

theorem splitL_cons_pos {sep : Str} (c : Char) (s : Str) (h1 : sep ≠ [])
    (h2 : sep.isPrefixOf (c :: s) = true) :
    splitL sep (c :: s) = [] :: splitL sep (s.drop (sep.length - 1)) := by
  show splitN sep (c :: s).length (c :: s) = _
  rw [List.length_cons, splitN_succ_cons, if_pos ⟨h1, h2⟩]
  exact congrArg _ (splitN_congr sep s.length _ _ (le_trans (by simp) (le_refl _)) (le_refl _))

theorem splitL_cons_neg {sep : Str} (c : Char) (s : Str)
    (h : ¬(sep ≠ [] ∧ sep.isPrefixOf (c :: s) = true)) :
    splitL sep (c :: s) = consFirst [c] (splitL sep s) := by
  show splitN sep (c :: s).length (c :: s) = _
  rw [List.length_cons, splitN_succ_cons, if_neg h]
  rfl

theorem countOcc_nil (sep : Str) : countOcc sep [] = 0 := rfl

theorem countOcc_cons_pos {sep : Str} (c : Char) (s : Str) (h1 : sep ≠ [])
    (h2 : sep.isPrefixOf (c :: s) = true) :
    countOcc sep (c :: s) = countOcc sep (s.drop (sep.length - 1)) + 1 := by
  show countN sep (c :: s).length (c :: s) = _
  rw [List.length_cons, countN_succ_cons, if_pos ⟨h1, h2⟩]
  exact congrArg _ (countN_congr sep s.length _ _ (le_trans (by simp) (le_refl _)) (le_refl _))

theorem countOcc_cons_neg {sep : Str} (c : Char) (s : Str)
    (h : ¬(sep ≠ [] ∧ sep.isPrefixOf (c :: s) = true)) :
    countOcc sep (c :: s) = countOcc sep s := by
  show countN sep (c :: s).length (c :: s) = _
  rw [List.length_cons, countN_succ_cons, if_neg h]
  rfl

theorem consFirst_ne_nil (x : Str) (l : List Str) : consFirst x l ≠ [] := by
  cases l <;> simp [consFirst]

theorem consFirst_length (x : Str) (l : List Str) (h : l ≠ []) :
    (consFirst x l).length = l.length := by
  cases l with
  | nil => exact absurd rfl h
  | cons r rs => rfl

theorem consFirst_consFirst (a b : Str) (l : List Str) :
    consFirst a (consFirst b l) = consFirst (a ++ b) l := by
  cases l <;> simp [consFirst]

theorem splitN_ne_nil (sep : Str) : ∀ (n : Nat) (s : Str), splitN sep n s ≠ [] := by
  intro n
  induction n with
  | zero =>
      intro s
      cases s with
      | nil => simp [splitN_nil]
      | cons c s => simp [splitN]
  | succ n ih =>
      intro s
      cases s with
      | nil => simp [splitN_nil]
      | cons c s =>
          rw [splitN_succ_cons]
          by_cases h : sep ≠ [] ∧ sep.isPrefixOf (c :: s) = true

          · rw [if_pos h]; simp
          · rw [if_neg h]; exact consFirst_ne_nil _ _

theorem splitL_ne_nil (sep s : Str) : splitL sep s ≠ [] := splitN_ne_nil sep s.length s

theorem splitN_length (sep : Str) :
    ∀ (n : Nat) (s : Str), s.length ≤ n → (splitN sep n s).length = countN sep n s + 1 := by
  intro n
  induction n with
  | zero =>
      intro s hn
      have hs : s = [] := List.eq_nil_of_length_eq_zero (Nat.le_zero.mp hn)
      subst hs
      rw [splitN_nil, countN_nil]
      rfl
  | succ n ih =>
      intro s hn
      cases s with
      | nil => rw [splitN_nil, countN_nil]; rfl
      | cons c s =>
          rw [splitN_succ_cons, countN_succ_cons]
          have hs : s.length ≤ n := (by simpa using hn)
          by_cases h : sep ≠ [] ∧ sep.isPrefixOf (c :: s) = true
          · rw [if_pos h, if_pos h, List.length_cons,
              ih (s.drop (sep.length - 1)) (le_trans (by simp) hs)]
          · rw [if_neg h, if_neg h, consFirst_length _ _ (splitN_ne_nil sep n s), ih s hs]

theorem splitL_length (sep s : Str) : (splitL sep s).length = countOcc sep s + 1 :=
  splitN_length sep s.length s (le_refl _)

/-! ## Properties of `pyFind` -/

theorem pyFind_fst (l : Str) :
    (match pyFind '_' l with
      | none => l
      | some i => l.take i) = l.takeWhile (· != '_') := by
  induction l with
  | nil => rfl
  | cons a l ih =>
      by_cases h : a = '_'
      · subst h
        simp [pyFind, List.takeWhile_cons]
      · simp only [pyFind, if_neg h]
        cases hf : pyFind '_' l with
        | none =>
            rw [hf] at ih
            simp [List.takeWhile_cons, h, ← ih]
        | some i =>
            rw [hf] at ih
            simp [List.takeWhile_cons, h, ← ih, List.take_succ_cons]

theorem pyFind_snd (l : Str) :
    (match pyFind '_' l with
      | none => ([] : Str)
      | some i => l.drop i) = l.dropWhile (· != '_') := by
  induction l with
  | nil => rfl
  | cons a l ih =>
      by_cases h : a = '_'
      · subst h
        simp [pyFind, List.dropWhile_cons]
      · simp only [pyFind, if_neg h]
        cases hf : pyFind '_' l with
        | none =>
            rw [hf] at ih
            simp [List.dropWhile_cons, h, ← ih]
        | some i =>
            rw [hf] at ih
            simp [List.dropWhile_cons, h, ← ih, List.drop_succ_cons]

/-! ## `extract_single_model` (postprocessing/utils.py) -/

/-- The filesystem as `extract_single_model` sees it: the existing directory
paths and the existing file paths. -/
structure FileSys where
  dirs : List Str
  files : List Str
deriving DecidableEq, Repr

/-- Embedding of `os.path.isdir` on the two-part filesystem. -/
def isdirF (fs : FileSys) (p : Str) : Bool := fs.dirs.contains p

/-- Embedding of `os.path.join(topdir, descriptor, syspar, modpar)` for
relative components. -/
def joinPath (a b c d : Str) : Str := a ++ '/' :: b ++ '/' :: c ++ '/' :: d

/-- Embedding of `glob('{}/*.hdf5'.format(filepath))`: the recorded files
directly inside `dir` whose name ends in `.hdf5`. -/
def globHdf5 (fs : FileSys) (dir : Str) : List Str :=
  fs.files.filter (fun f =>
    (dir ++ ['/']).isPrefixOf f && (".hdf5".toList).isSuffixOf f &&
      !((f.drop (dir.length + 1)).contains '/'))

/-- Embedding of `extract_single_model`: when the joined path is not a
directory it prints and returns `None`; when it is a directory, `glob(...)[0]`
is returned if a `.hdf5` file is there, and otherwise the `IndexError` is
caught, a message printed, and the `return file` line raises
`UnboundLocalError` because the local `file` was never assigned on that
path. -/
def extractSingleModel (fs : FileSys) (topdir descriptor syspar modpar : Str) :
    Except PyErr (Option Str) :=
  let filepath := joinPath topdir descriptor syspar modpar
  if isdirF fs filepath then
    match globHdf5 fs filepath with
    | file :: _ => .ok (some file)
    | [] => .error .unboundLocal
  else
    .ok none

/-- Claim C10: `extract_single_model` returns None when the joined path is
not an existing directory; when the directory exists but holds no `.hdf5`
file, it raises `UnboundLocalError` instead of returning None, since the
branch that catches the `IndexError` never assigns the `file` variable. -/
theorem extract_single_model_missing_file_unbound :
    ∀ (fs : FileSys) (topdir descriptor syspar modpar : Str),
      (isdirF fs (joinPath topdir descriptor syspar modpar) = false →
        extractSingleModel fs topdir descriptor syspar modpar = .ok none) ∧
      (isdirF fs (joinPath topdir descriptor syspar modpar) = true →
        globHdf5 fs (joinPath topdir descriptor syspar modpar) = [] →
        extractSingleModel fs topdir descriptor syspar modpar = .error .unboundLocal) := by
  intro fs topdir descriptor syspar modpar
  constructor
  · intro h
    simp [extractSingleModel, h]
  · intro h hg
    simp [extractSingleModel, h, hg]

/-- Claim C9: `_extract_disorder` with mode 0 returns a (rest, disorder)
pair exactly when the underscore-wrapped disorder key occurs exactly once in
the underscore-prefixed input (otherwise the two-element unpacking of the
split raises `ValueError`) and the token that follows the key — up to the
next underscore — parses as a float (otherwise the float conversion raises
`ValueError`). -/
theorem extract_disorder_ok_iff :
    ∀ (s dk : Str),
      (extractDisorder s dk).isOk = true ↔
        (countOcc (wrappedKey dk) ('_' :: s) = 1 ∧
          (pyFloat (((splitL (wrappedKey dk) ('_' :: s)).getD 1 []).takeWhile (· != '_'))).isSome
            = true) := by
  intro s dk
  have hlen := splitL_length (wrappedKey dk) ('_' :: s)
  cases hp : splitL (wrappedKey dk) ('_' :: s) with
  | nil => exact absurd hp (splitL_ne_nil _ _)
  | cons a rest =>
      cases rest with
      | nil =>
          rw [hp] at hlen
          have hc : countOcc (wrappedKey dk) ('_' :: s) = 0 := by
            simp at hlen; omega
          have herr : extractDisorder s dk = .error .valueError := by
            simp [extractDisorder, hp]
          constructor
          · intro hok
            rw [herr] at hok
            simp [Except.isOk, Except.toBool] at hok
          · rintro ⟨h1, -⟩
            exact absurd (hc.symm.trans h1) (by decide)
      | cons b rest2 =>
          cases rest2 with
          | nil =>
              rw [hp] at hlen
              have hc : countOcc (wrappedKey dk) ('_' :: s) = 1 := by
                simp at hlen; omega
              cases hq : pyFloat (b.takeWhile (· != '_')) with
              | none =>
                  have herr : extractDisorder s dk = .error .valueError := by
                    simp [extractDisorder, hp, pyFind_fst b, hq]
                  constructor
                  · intro hok
                    rw [herr] at hok
                    simp [Except.isOk, Except.toBool] at hok
                  · rintro ⟨-, h2⟩
                    simp [hq] at h2
              | some q =>
                  have hok : extractDisorder s dk =
                      .ok (List.dropWhile (· == '_') a ++ b.dropWhile (· != '_'), q) := by
                    simp [extractDisorder, hp, pyFind_fst b, pyFind_snd b, hq]
                  constructor
                  · intro _
                    exact ⟨hc, by simp [hq]⟩
                  · intro _
                    rw [hok]
                    simp [Except.isOk, Except.toBool]
          | cons d rest3 =>
              rw [hp] at hlen
              have hc : 1 < countOcc (wrappedKey dk) ('_' :: s) := by
                simp at hlen; omega
              have herr : extractDisorder s dk = .error .valueError := by
                simp [extractDisorder, hp]
              constructor
              · intro hok
                rw [herr] at hok
                simp [Except.isOk, Except.toBool] at hok
              · rintro ⟨h1, -⟩
                omega

/-! ## Round-trip analysis: how `splitL` behaves on descriptor-shaped
strings (underscore-joined, underscore-free tokens) -/

theorem no_us_prefix (k t : Str) (ht : ∀ c ∈ t, c ≠ '_') : ¬(k ++ ['_'] <+: t) :=
  fun h => ht '_' (h.subset (by simp)) rfl

theorem key_prefix_eq (k : Str) :
    ∀ (t r : Str), (∀ c ∈ k, c ≠ '_') → (∀ c ∈ t, c ≠ '_') →
      (r = [] ∨ ∃ r', r = '_' :: r') → (k ++ ['_'] <+: t ++ r) → t = k := by
  induction k with
  | nil =>
      intro t r _ ht _ hp
      cases t with
      | nil => rfl
      | cons c t =>
          rw [List.nil_append, List.cons_append] at hp
          rcases List.cons_prefix_cons.mp hp with ⟨h1, -⟩
          exact absurd h1.symm (ht c (List.mem_cons_self _ _))
  | cons a k ih =>
      intro t r hk ht hr hp
      cases t with
      | nil =>
          exfalso
          have ha : a ≠ '_' := hk a (List.mem_cons_self _ _)
          rcases hr with hr | ⟨r', hr⟩
          · subst hr
            rw [List.nil_append] at hp
            have := List.prefix_nil.mp hp
            simp at this
          · subst hr
            rw [List.nil_append, List.cons_append] at hp
            rcases List.cons_prefix_cons.mp hp with ⟨h1, -⟩
            exact ha h1
      | cons b t =>
          rw [List.cons_append, List.cons_append] at hp
          rcases List.cons_prefix_cons.mp hp with ⟨h1, h2⟩
          rw [ih t r (fun c hc => hk c (List.mem_cons_of_mem _ hc))
            (fun c hc => ht c (List.mem_cons_of_mem _ hc)) hr h2, h1]

theorem prefix_append_cons (k : Str) (x : Char) (r : Str) : k ++ [x] <+: k ++ x :: r :=
  ⟨r, by simp⟩

theorem splitL_chunk (w : Str) (t : Str) (ht : ∀ c ∈ t, c ≠ '_') (r : Str) :
    splitL ('_' :: w) (t ++ r) = consFirst t (splitL ('_' :: w) r) := by
  induction t with
  | nil =>
      cases hl : splitL ('_' :: w) r with
      | nil => exact absurd hl (splitL_ne_nil _ _)
      | cons x xs => simp [consFirst, hl]
  | cons c t ih =>
      have hc : c ≠ '_' := ht c (List.mem_cons_self _ _)
      have hnp : ¬(('_' :: w) ≠ [] ∧ ('_' :: w).isPrefixOf (c :: (t ++ r)) = true) := by
        rintro ⟨-, hp⟩
        simp [List.isPrefixOf] at hp
        exact hc hp.1.symm
      rw [List.cons_append, splitL_cons_neg c (t ++ r) hnp,
        ih (fun c hc => ht c (List.mem_cons_of_mem _ hc)), consFirst_consFirst]
      rfl

/-! ## Helpers about underscore-joined token lists -/

theorem interUnd_cons_ne (x : Str) (l : List Str) (h : l ≠ []) :
    interUnd (x :: l) = x ++ '_' :: interUnd l := by
  cases l with
  | nil => exact absurd rfl h
  | cons y r => rfl

theorem interUnd_append (a b : List Str) (ha : a ≠ []) (hb : b ≠ []) :
    interUnd (a ++ b) = interUnd a ++ '_' :: interUnd b := by
  induction a with
  | nil => exact absurd rfl ha
  | cons x a ih =>
      cases a with
      | nil => simp [interUnd_cons_ne x b hb, interUnd]
      | cons y a' =>
          rw [List.cons_append, interUnd_cons_ne x ((y :: a') ++ b) (by simp),
            ih (by simp), interUnd_cons_ne x (y :: a') (by simp)]
          simp

theorem pyFind_none_of_no_us (l : Str) (h : ∀ c ∈ l, c ≠ '_') : pyFind '_' l = none := by
  induction l with
  | nil => rfl
  | cons a l ih =>
      have ha : a ≠ '_' := h a (List.mem_cons_self _ _)
      simp [pyFind, ha, ih (fun c hc => h c (List.mem_cons_of_mem _ hc))]

theorem takeWhile_no_us_append (v : Str) (hv : ∀ c ∈ v, c ≠ '_') (x : Str) :
    (v ++ '_' :: x).takeWhile (· != '_') = v := by
  induction v with
  | nil => simp [List.takeWhile_cons]
  | cons a v ih =>
      have ha : a ≠ '_' := hv a (List.mem_cons_self _ _)
      simp [List.takeWhile_cons, ha, ih (fun c hc => hv c (List.mem_cons_of_mem _ hc))]

theorem dropWhile_no_us_append (v : Str) (hv : ∀ c ∈ v, c ≠ '_') (x : Str) :
    (v ++ '_' :: x).dropWhile (· != '_') = '_' :: x := by
  induction v with
  | nil => simp [List.dropWhile_cons]
  | cons a v ih =>
      have ha : a ≠ '_' := hv a (List.mem_cons_self _ _)
      simp [List.dropWhile_cons, ha, ih (fun c hc => hv c (List.mem_cons_of_mem _ hc))]

theorem dropWhile_us_cons (l : Str) (h : l = [] ∨ ∃ c l', l = c :: l' ∧ c ≠ '_') :
    List.dropWhile (· == '_') ('_' :: l) = l := by
  rcases h with h | ⟨c, l', h, hc⟩
  · subst h; simp [List.dropWhile_cons]
  · subst h; simp [List.dropWhile_cons, hc]

theorem strip_eq_self (k : Str) (hk : ∀ c ∈ k, c ≠ '_') : stripUnd k = k := by
  have h1 : List.dropWhile (· == '_') k = k := by
    cases k with
    | nil => rfl
    | cons c t =>
        have hc : c ≠ '_' := hk c (List.mem_cons_self _ _)
        simp [List.dropWhile_cons, hc]
  have h2 : List.rdropWhile (· == '_') k = k := by
    rw [List.rdropWhile]
    have : List.dropWhile (· == '_') k.reverse = k.reverse := by
      cases hr : k.reverse with
      | nil => rfl
      | cons c t =>
          have hc : c ∈ k := by
            have : c ∈ k.reverse := by rw [hr]; exact List.mem_cons_self _ _
            simpa using this
          simp [List.dropWhile_cons, hk c hc]
    rw [this, List.reverse_reverse]
  rw [stripUnd, h1, h2]

theorem splitL_us_no_key (k : Str) (hk : ∀ c ∈ k, c ≠ '_') :
    ∀ (ts : List Str), (∀ t ∈ ts, t ≠ [] ∧ ∀ c ∈ t, c ≠ '_') → (∀ t ∈ ts, t ≠ k) →
      splitL ('_' :: (k ++ ['_'])) ('_' :: interUnd ts) = ['_' :: interUnd ts] := by
  intro ts
  induction ts with
  | nil =>
      intro _ _
      have hnp : ¬(('_' :: (k ++ ['_'])) ≠ [] ∧
          ('_' :: (k ++ ['_'])).isPrefixOf ['_'] = true) := by
        rintro ⟨-, hp⟩
        rw [List.isPrefixOf_iff_prefix] at hp
        rcases List.cons_prefix_cons.mp hp with ⟨-, h2⟩
        have := List.prefix_nil.mp h2
        simp at this
      show splitL ('_' :: (k ++ ['_'])) ('_' :: ([] : Str)) = _
      rw [splitL_cons_neg _ _ hnp, splitL_nil]
      rfl
  | cons t ts ih =>
      intro hts hnk
      have htp := hts t (List.mem_cons_self _ _)
      have htk := hnk t (List.mem_cons_self _ _)
      have hts' := fun t' ht' => hts t' (List.mem_cons_of_mem _ ht')
      have hnk' := fun t' ht' => hnk t' (List.mem_cons_of_mem _ ht')
      cases ts with
      | nil =>
          have hnp : ¬(('_' :: (k ++ ['_'])) ≠ [] ∧
              ('_' :: (k ++ ['_'])).isPrefixOf ('_' :: t) = true) := by
            rintro ⟨-, hp⟩
            rw [List.isPrefixOf_iff_prefix] at hp
            rcases List.cons_prefix_cons.mp hp with ⟨-, h2⟩
            exact no_us_prefix k t htp.2 h2
          show splitL ('_' :: (k ++ ['_'])) ('_' :: t) = _
          rw [splitL_cons_neg _ _ hnp]
          have hchunk := splitL_chunk (k ++ ['_']) t htp.2 []
          rw [List.append_nil] at hchunk
          rw [hchunk, splitL_nil]
          simp [consFirst, interUnd]
      | cons t' ts' =>
          have hnp : ¬(('_' :: (k ++ ['_'])) ≠ [] ∧
              ('_' :: (k ++ ['_'])).isPrefixOf
                ('_' :: (t ++ '_' :: interUnd (t' :: ts'))) = true) := by
            rintro ⟨-, hp⟩
            rw [List.isPrefixOf_iff_prefix] at hp
            rcases List.cons_prefix_cons.mp hp with ⟨-, h2⟩
            exact htk (key_prefix_eq k t ('_' :: interUnd (t' :: ts')) hk htp.2
              (Or.inr ⟨_, rfl⟩) h2)
          show splitL ('_' :: (k ++ ['_'])) ('_' :: (t ++ '_' :: interUnd (t' :: ts'))) = _
          rw [splitL_cons_neg _ _ hnp,
            splitL_chunk (k ++ ['_']) t htp.2 ('_' :: interUnd (t' :: ts')),
            ih hts' hnk']
          rfl

theorem splitL_ic_no_key (k : Str) (hk : ∀ c ∈ k, c ≠ '_')
    (ts : List Str) (hts : ∀ t ∈ ts, t ≠ [] ∧ ∀ c ∈ t, c ≠ '_') (hnk : ∀ t ∈ ts, t ≠ k) :
    splitL ('_' :: (k ++ ['_'])) (interUnd ts) = [interUnd ts] := by
  cases ts with
  | nil => rfl
  | cons t ts' =>
      have htp := hts t (List.mem_cons_self _ _)
      cases ts' with
      | nil =>
          have hchunk := splitL_chunk (k ++ ['_']) t htp.2 []
          rw [List.append_nil] at hchunk
          show splitL ('_' :: (k ++ ['_'])) t = [t]
          rw [hchunk, splitL_nil]
          simp [consFirst]
      | cons t'' ts'' =>
          show splitL ('_' :: (k ++ ['_'])) (t ++ '_' :: interUnd (t'' :: ts'')) = _
          rw [splitL_chunk (k ++ ['_']) t htp.2,
            splitL_us_no_key k hk (t'' :: ts'')
              (fun u hu => hts u (List.mem_cons_of_mem _ hu))
              (fun u hu => hnk u (List.mem_cons_of_mem _ hu))]
          rfl

theorem splitL_single_key (k : Str) (hk : ∀ c ∈ k, c ≠ '_') :
    ∀ (ts : List Str) (j : Nat), (∀ t ∈ ts, t ≠ [] ∧ ∀ c ∈ t, c ≠ '_') →
      ts[j]? = some k → (∀ (m : Nat) (u : Str), ts[m]? = some u → m ≠ j → u ≠ k) →
      j + 1 < ts.length →
      splitL ('_' :: (k ++ ['_'])) ('_' :: interUnd ts) =
        [if j = 0 then [] else '_' :: interUnd (ts.take j), interUnd (ts.drop (j + 1))] := by
  intro ts
  induction ts with
  | nil => intro j _ hat _ _; simp at hat
  | cons t ts ih =>
      intro j hts hat huni hlt
      cases j with
      | zero =>
          have ht : t = k := by simpa using hat
          subst ht
          cases ts with
          | nil => simp at hlt
          | cons t' ts' =>
              have hpre : ('_' :: (t ++ ['_'])).isPrefixOf
                  ('_' :: (t ++ '_' :: interUnd (t' :: ts'))) = true := by
                rw [List.isPrefixOf_iff_prefix]
                exact List.cons_prefix_cons.mpr ⟨rfl, prefix_append_cons t '_' _⟩
              show splitL ('_' :: (t ++ ['_'])) ('_' :: (t ++ '_' :: interUnd (t' :: ts'))) = _
              rw [splitL_cons_pos _ _ (by simp) hpre]
              have hdrop : (t ++ '_' :: interUnd (t' :: ts')).drop
                  (('_' :: (t ++ ['_'])).length - 1) = interUnd (t' :: ts') := by
                have h1 : ('_' :: (t ++ ['_'])).length - 1 = (t ++ ['_']).length := by simp
                rw [h1, show t ++ '_' :: interUnd (t' :: ts') =
                  (t ++ ['_']) ++ interUnd (t' :: ts') by simp, List.drop_left]
              rw [hdrop]
              have hnk' : ∀ u ∈ t' :: ts', u ≠ t := by
                intro u hu
                obtain ⟨m, hm⟩ := List.getElem?_of_mem hu
                exact huni (m + 1) u (by simpa using hm) (by omega)
              rw [splitL_ic_no_key t hk (t' :: ts')
                (fun u hu => hts u (List.mem_cons_of_mem _ hu)) hnk']
              simp
      | succ j' =>
          have ht : t ≠ k := huni 0 t (by simp) (by omega)
          cases ts with
          | nil => simp at hat
          | cons t' ts' =>
              have hat' : (t' :: ts')[j']? = some k := by simpa using hat
              have hts' : ∀ u ∈ t' :: ts', u ≠ [] ∧ ∀ c ∈ u, c ≠ '_' :=
                fun u hu => hts u (List.mem_cons_of_mem _ hu)
              have huni' : ∀ (m : Nat) (u : Str), (t' :: ts')[m]? = some u → m ≠ j' → u ≠ k :=
                fun m u hm hne => huni (m + 1) u (by simpa using hm) (by omega)
              have hlt' : j' + 1 < (t' :: ts').length := by
                simp at hlt ⊢; omega
              have htp := hts t (List.mem_cons_self _ _)
              have hnp : ¬(('_' :: (k ++ ['_'])) ≠ [] ∧
                  ('_' :: (k ++ ['_'])).isPrefixOf
                    ('_' :: (t ++ '_' :: interUnd (t' :: ts'))) = true) := by
                rintro ⟨-, hp⟩
                rw [List.isPrefixOf_iff_prefix] at hp
                rcases List.cons_prefix_cons.mp hp with ⟨-, h2⟩
                exact ht (key_prefix_eq k t ('_' :: interUnd (t' :: ts')) hk htp.2
                  (Or.inr ⟨_, rfl⟩) h2)
              show splitL ('_' :: (k ++ ['_']))
                ('_' :: (t ++ '_' :: interUnd (t' :: ts'))) = _
              rw [splitL_cons_neg _ _ hnp,
                splitL_chunk (k ++ ['_']) t htp.2 ('_' :: interUnd (t' :: ts')),
                ih j' hts' hat' huni' hlt']
              by_cases hj0 : j' = 0
              · subst hj0
                simp [consFirst, interUnd]
              · rw [if_neg hj0, if_neg (by omega : ¬(j' + 1 = 0))]
                have hne : (t' :: ts').take j' ≠ [] := by
                  simp [hj0]
                rw [show (t :: t' :: ts').take (j' + 1) = t :: (t' :: ts').take j' by
                    simp [List.take_succ_cons],
                  interUnd_cons_ne t _ hne]
                simp [consFirst, List.drop_succ_cons]

/-! ## Token lists of descriptor pairs -/

theorem tokensOf_append (a b : List (Str × Str)) :
    tokensOf (a ++ b) = tokensOf a ++ tokensOf b := by
  simp [tokensOf]

theorem tokensOf_cons (p : Str × Str) (ps : List (Str × Str)) :
    tokensOf (p :: ps) = p.1 :: p.2 :: tokensOf ps := by
  simp [tokensOf]

theorem tokensOf_ne_nil (l : List (Str × Str)) (h : l ≠ []) : tokensOf l ≠ [] := by
  cases l with
  | nil => exact absurd rfl h
  | cons p ps => simp [tokensOf]

theorem tokensOf_length (pairs : List (Str × Str)) :
    (tokensOf pairs).length = 2 * pairs.length := by
  induction pairs with
  | nil => rfl
  | cons p ps ih =>
      rw [tokensOf_cons]
      simp only [List.length_cons, List.length_cons, ih, List.length_cons]
      omega

theorem tokensOf_take (pairs : List (Str × Str)) :
    ∀ i : Nat, (tokensOf pairs).take (2 * i) = tokensOf (pairs.take i) := by
  induction pairs with
  | nil => intro i; simp [tokensOf]
  | cons p ps ih =>
      intro i
      cases i with
      | zero => simp [tokensOf]
      | succ i' =>
          have h2 : 2 * (i' + 1) = 2 * i' + 1 + 1 := by omega
          rw [tokensOf_cons, h2, List.take_succ_cons, List.take_succ_cons, ih i',
            List.take_succ_cons, tokensOf_cons]

theorem tokensOf_drop_at (pairs : List (Str × Str)) :
    ∀ (i : Nat) (dk v : Str), pairs[i]? = some (dk, v) →
      (tokensOf pairs).drop (2 * i) = dk :: v :: tokensOf (pairs.drop (i + 1)) := by
  induction pairs with
  | nil => intro i dk v h; simp at h
  | cons p ps ih =>
      intro i dk v h
      cases i with
      | zero =>
          have hp : p = (dk, v) := by simpa using h
          subst hp
          simp [tokensOf_cons]
      | succ i' =>
          have h' : ps[i']? = some (dk, v) := by simpa using h
          have h2 : 2 * (i' + 1) = 2 * i' + 1 + 1 := by omega
          rw [tokensOf_cons, h2, List.drop_succ_cons, List.drop_succ_cons, ih i' dk v h',
            List.drop_succ_cons]

theorem tokensOf_at_key (pairs : List (Str × Str)) (i : Nat) (dk v : Str)
    (h : pairs[i]? = some (dk, v)) : (tokensOf pairs)[2 * i]? = some dk := by
  have hd := tokensOf_drop_at pairs i dk v h
  have hg := List.getElem?_drop (tokensOf pairs) (2 * i) 0
  rw [hd] at hg
  simpa using hg.symm

theorem count_two_of_two_indices (l : List Str) :
    ∀ (a : Str) (i j : Nat), i ≠ j → l[i]? = some a → l[j]? = some a → 2 ≤ l.count a := by
  induction l with
  | nil => intro a i j _ hi _; simp at hi
  | cons x l ih =>
      intro a i j hne hi hj
      cases i with
      | zero =>
          have hx : x = a := by simpa using hi
          cases j with
          | zero => omega
          | succ j' =>
              have hj' : l[j']? = some a := by simpa using hj
              have hmem : a ∈ l := by
                rcases List.getElem?_eq_some.mp hj' with ⟨hlt, he⟩
                exact he ▸ l.getElem_mem hlt
              have h1 : 0 < l.count a := List.count_pos_iff.mpr hmem
              subst hx
              rw [List.count_cons_self]
              omega
      | succ i' =>
          cases j with
          | zero =>
              have hx : x = a := by simpa using hj
              have hi' : l[i']? = some a := by simpa using hi
              have hmem : a ∈ l := by
                rcases List.getElem?_eq_some.mp hi' with ⟨hlt, he⟩
                exact he ▸ l.getElem_mem hlt
              have h1 : 0 < l.count a := List.count_pos_iff.mpr hmem
              subst hx
              rw [List.count_cons_self]
              omega
          | succ j' =>
              have hi' : l[i']? = some a := by simpa using hi
              have hj' : l[j']? = some a := by simpa using hj
              have h2 := ih a i' j' (by omega) hi' hj'
              have h3 := List.count_le_count_cons a x l
              omega

theorem interUnd_head_ne_us (ts : List Str)
    (hts : ∀ t ∈ ts, t ≠ [] ∧ ∀ c ∈ t, c ≠ '_') (hne : ts ≠ []) :
    ∃ c l', interUnd ts = c :: l' ∧ c ≠ '_' := by
  cases ts with
  | nil => exact absurd rfl hne
  | cons t ts' =>
      have htp := hts t (List.mem_cons_self _ _)
      cases ht : t with
      | nil => exact absurd ht htp.1
      | cons c t' =>
          have hc : c ≠ '_' := htp.2 c (by rw [ht]; exact List.mem_cons_self _ _)
          cases ts' with
          | nil => exact ⟨c, t', rfl, hc⟩
          | cons u us => exact ⟨c, t' ++ '_' :: interUnd (u :: us), rfl, hc⟩

theorem extract_roundtrip_pairs (pairs : List (Str × Str)) (i : Nat) (dk v : Str) (q : ℚ)
    (htok : ∀ t ∈ tokensOf pairs, t ≠ [] ∧ ∀ c ∈ t, c ≠ '_')
    (hat : pairs[i]? = some (dk, v))
    (hi : i ≠ 0)
    (huniq : (tokensOf pairs).count dk = 1)
    (hq : pyFloat v = some q) :
    extractDisorder (descriptorOf pairs) dk = .ok (descriptorOf (pairs.eraseIdx i), q) := by
  have hatk : (tokensOf pairs)[2 * i]? = some dk := tokensOf_at_key pairs i dk v hat
  have hdk_mem : dk ∈ tokensOf pairs := by
    rcases List.getElem?_eq_some.mp hatk with ⟨hlt, he⟩
    exact he ▸ (tokensOf pairs).getElem_mem hlt
  have hdk := htok dk hdk_mem
  have hwrap : wrappedKey dk = '_' :: (dk ++ ['_']) := by
    rw [wrappedKey, strip_eq_self dk hdk.2]
  have hilen : i < pairs.length := (List.getElem?_eq_some.mp hat).1
  have hlt2 : 2 * i + 1 < (tokensOf pairs).length := by
    rw [tokensOf_length]; omega
  have huni' : ∀ (m : Nat) (u : Str), (tokensOf pairs)[m]? = some u → m ≠ 2 * i → u ≠ dk := by
    intro m u hm hne heq
    subst heq
    have h2 := count_two_of_two_indices (tokensOf pairs) u m (2 * i) hne hm hatk
    omega
  have hsplit := splitL_single_key dk hdk.2 (tokensOf pairs) (2 * i) htok hatk huni' hlt2
  rw [if_neg (by omega : ¬(2 * i = 0))] at hsplit
  have htake : (tokensOf pairs).take (2 * i) = tokensOf (pairs.take i) := tokensOf_take pairs i
  have hdropt := tokensOf_drop_at pairs i dk v hat
  have hdrop1 : (tokensOf pairs).drop (2 * i + 1) = v :: tokensOf (pairs.drop (i + 1)) := by
    have hdd : (tokensOf pairs).drop (2 * i + 1) = ((tokensOf pairs).drop (2 * i)).drop 1 := by
      rw [List.drop_drop]
    rw [hdd, hdropt, List.drop_succ_cons, List.drop_zero]
  rw [htake, hdrop1] at hsplit
  have hatv : (tokensOf pairs)[2 * i + 1]? = some v := by
    have hg := List.getElem?_drop (tokensOf pairs) (2 * i + 1) 0
    rw [hdrop1] at hg
    simpa using hg.symm
  have hv : v ≠ [] ∧ ∀ c ∈ v, c ≠ '_' := by
    refine htok v ?_
    rcases List.getElem?_eq_some.mp hatv with ⟨hlt, he⟩
    exact he ▸ (tokensOf pairs).getElem_mem hlt
  have hpairs_ne : pairs ≠ [] := by
    intro h; rw [h] at hilen; simp at hilen
  have htakene : pairs.take i ≠ [] := by
    intro hcon
    rcases List.take_eq_nil_iff.mp hcon with h | h
    · exact hi h
    · exact hpairs_ne h
  have htoktake : ∀ t ∈ tokensOf (pairs.take i), t ≠ [] ∧ ∀ c ∈ t, c ≠ '_' := by
    intro t ht
    refine htok t ?_
    rw [← htake] at ht
    exact List.take_subset _ _ ht
  obtain ⟨c0, l0, hc0, hc0ne⟩ :=
    interUnd_head_ne_us (tokensOf (pairs.take i)) htoktake (tokensOf_ne_nil _ htakene)
  have hdropus : List.dropWhile (· == '_') ('_' :: interUnd (tokensOf (pairs.take i))) =
      interUnd (tokensOf (pairs.take i)) :=
    dropWhile_us_cons _ (Or.inr ⟨c0, l0, hc0, hc0ne⟩)
  have hsplit' : splitL (wrappedKey dk) ('_' :: descriptorOf pairs) =
      ['_' :: interUnd (tokensOf (pairs.take i)),
        interUnd (v :: tokensOf (pairs.drop (i + 1)))] := by
    rw [hwrap, descriptorOf]
    exact hsplit
  have herase : pairs.eraseIdx i = pairs.take i ++ pairs.drop (i + 1) :=
    List.eraseIdx_eq_take_drop_succ pairs i
  cases hrest : pairs.drop (i + 1) with
  | nil =>
      rw [hrest] at hsplit'
      have hdis : interUnd (v :: tokensOf ([] : List (Str × Str))) = v := rfl
      rw [hdis] at hsplit'
      have hpf : pyFind '_' v = none := pyFind_none_of_no_us v hv.2
      have hrhs : descriptorOf (pairs.eraseIdx i) = interUnd (tokensOf (pairs.take i)) := by
        rw [herase, hrest, List.append_nil, descriptorOf]
      rw [hrhs]
      simp [extractDisorder, hsplit', hpf, hq, hdropus]
  | cons p ps =>
      rw [hrest] at hsplit'
      have hdis : interUnd (v :: tokensOf (p :: ps)) =
          v ++ '_' :: interUnd (tokensOf (p :: ps)) :=
        interUnd_cons_ne v _ (tokensOf_ne_nil _ (by simp))
      rw [hdis] at hsplit'
      have hfst : (match pyFind '_' (v ++ '_' :: interUnd (tokensOf (p :: ps))) with
          | none => v ++ '_' :: interUnd (tokensOf (p :: ps))
          | some i => (v ++ '_' :: interUnd (tokensOf (p :: ps))).take i) = v := by
        rw [pyFind_fst]
        exact takeWhile_no_us_append v hv.2 _
      have hsnd : (match pyFind '_' (v ++ '_' :: interUnd (tokensOf (p :: ps))) with
          | none => ([] : Str)
          | some i => (v ++ '_' :: interUnd (tokensOf (p :: ps))).drop i) =
          '_' :: interUnd (tokensOf (p :: ps)) := by
        rw [pyFind_snd]
        exact dropWhile_no_us_append v hv.2 _
      have hrhs : descriptorOf (pairs.eraseIdx i) =
          interUnd (tokensOf (pairs.take i)) ++ '_' :: interUnd (tokensOf (p :: ps)) := by
        rw [herase, hrest, descriptorOf, tokensOf_append,
          interUnd_append _ _ (tokensOf_ne_nil _ htakene) (tokensOf_ne_nil _ (by simp))]
      rw [hrhs]
      cases hpf : pyFind '_' (v ++ '_' :: interUnd (tokensOf (p :: ps))) with
      | none =>
          rw [hpf] at hfst
          exact absurd hfst.symm (by simp [hv.1])
      | some ix =>
          rw [hpf] at hfst hsnd
          simp only [Option.some.injEq] at hfst hsnd
          simp [extractDisorder, hsplit', hpf, hfst, hsnd, hq, hdropus]

/-- Claim C6 (amended): parsing a Job's descriptor with `_extract_disorder`
(mode 0) recovers the assignment when the queried key is not the descriptor's
FIRST key: under the descriptor grammar (non-empty, underscore-free keys and
rendered values, the queried key occurring once among the tokens, its value a
float literal), the routine returns the float value bound to the key together
with the descriptor of the remaining pairs — the claim's "remainder with that
key_value pair removed".  When the queried key is the first key the returned
remainder instead keeps a leading underscore (see the counterexample), so the
round trip as originally claimed fails there. -/
theorem extract_disorder_round_trip (job : Job) (i : Nat) (dk v : Str) (q : ℚ)
    (htok : ∀ t ∈ tokensOf (jobPairs job), t ≠ [] ∧ ∀ c ∈ t, c ≠ '_')
    (hat : (jobPairs job)[i]? = some (dk, v))
    (hi : i ≠ 0)
    (huniq : (tokensOf (jobPairs job)).count dk = 1)
    (hq : pyFloat v = some q) :
    extractDisorder job.descriptor dk = .ok (descriptorOf ((jobPairs job).eraseIdx i), q) :=
  extract_roundtrip_pairs (jobPairs job) i dk v q htok hat hi huniq hq

/-- Job of the spec's worked example, assigning L to 8 and dW to 1.0. -/
def exampleJob : Job :=
  { pars := [("L".toList, "8".toList), ("dW".toList, "1.0".toList)]
    sysparKeys := ["L".toList]
    modparKeys := ["dW".toList]
    auxparKeys := []
    redef := [] }

/-- Claim C6, witness: the round-trip theorem applied to the example Job
`L_8_dW_1.0` at its second key dW, recovering 1.0 and `L_8`. -/
theorem extract_disorder_round_trip_witness :
    extractDisorder exampleJob.descriptor ("dW".toList) =
      .ok (descriptorOf ((jobPairs exampleJob).eraseIdx 1), 1) :=
  extract_disorder_round_trip exampleJob 1 ("dW".toList) ("1.0".toList) 1
    (by decide) (by decide) (by decide) (by decide) (by decide)

/-- Claim C6, counterexample: on the spec's own example descriptor
`L_8_dW_1.0`, extracting the FIRST key L yields the remainder `_dW_1.0` —
with a leading underscore — not the descriptor `dW_1.0` with the `L_8` pair
removed, because the code strips leading underscores only from the part left
of the key. -/
theorem extract_disorder_first_key_counterexample :
    extractDisorder ("L_8_dW_1.0".toList) ("L".toList) = .ok ("_dW_1.0".toList, 8) ∧
      ("_dW_1.0".toList : Str) ≠ "dW_1.0".toList :=
  ⟨by decide, by decide⟩

end Qmblite
